import Mathlib

/-!
Verification of the buildpack data-format layer of the lifecycle repository:
the version-gated layer-metadata codec (`buildpack/layermetadata.go`), the
launch descriptor decoder, the `Require` version predicates and the `Plan`
filter / BOM projection (`buildpack` data-format file).

The TOML parser is treated (as in the spec) as a supplied primitive that
turns text into a generic value tree; we model a parsed document as an
association list from keys to `TomlValue`, and an on-disk file as either
absent, malformed (raw text that fails to parse) or a parsed document.
Go `interface{}` payloads are modelled by `TomlValue`, with the Go `nil`
interface modelled by `Option TomlValue = none`.
-/

namespace Lifecycle

/-- A generic TOML value tree (the decode target of `interface{}` in Go). -/
inductive TomlValue where
  | str (s : String)
  | int (n : Int)
  | bool (b : Bool)
  | arr (elems : List TomlValue)
  | table (fields : List (String × TomlValue))

/-- Go comparison of a `string` operand against an `interface{}` operand:
equal exactly when the dynamic type is `string` and the contents agree. -/
def goEqStringValue (s : String) : TomlValue → Bool
  | .str t => s == t
  | _ => false

/-- A parsed top-level TOML document: keys (unique in valid TOML) to values. -/
def TomlDoc := List (String × TomlValue)

/-- Key lookup in a parsed document (Go map indexing on the untyped decode). -/
def lookupToml : List (String × TomlValue) → String → Option TomlValue
  | [], _ => none
  | (k, v) :: rest, key => if k = key then some v else lookupToml rest key

/-- Go `fmt.Sprintf("%v", x)` on a decoded TOML value. Exact on scalars
(string, integer, boolean), which is all the development relies on: it
only feeds the spec-worded variant of `hasInconsistentVersions`, whose
comparison with the source is settled on scalar metadata values. The
composite renderings stand in for the bracketed forms `%v` produces. -/
def goFormatV : TomlValue → String
  | .str s => s
  | .int n => toString n
  | .bool b => if b then "true" else "false"
  | .arr _ => "[slice]"
  | .table _ => "map[]"

/-- Buildpack API version: the dotted major.minor identifier of
`api.MustParse`. The comparison primitives are modelled from their
documented semantics (`Compare` on major, then minor). -/
structure APIVersion where
  major : Nat
  minor : Nat
deriving DecidableEq

/-- `api.Version.LessThan`: strict lexicographic order on (major, minor). -/
def APIVersion.lessThan (a b : APIVersion) : Bool :=
  a.major < b.major || (a.major = b.major && a.minor < b.minor)

/-- `api.Version.AtLeast`: negation of `LessThan`. -/
def APIVersion.atLeast (a b : APIVersion) : Bool :=
  !(a.lessThan b)

/-- The version constant `"0.6"` gating the layer metadata codec. -/
def v06 : APIVersion := ⟨0, 6⟩

/-- The version constant `"0.9"` gating the launch descriptor decoder. -/
def v09 : APIVersion := ⟨0, 9⟩

/-- An on-disk file as a decoder sees it after the parser primitive ran:
either raw text the parser rejects, or a parsed top-level document. -/
inductive ParsedFile where
  | malformed
  | doc (d : TomlDoc)

/-- A path's state on disk: absent, or present with some contents. -/
inductive DiskFile where
  | absent
  | present (f : ParsedFile)

/-- The parser primitive's syntax error (its text is opaque to this layer). -/
def tomlSyntaxError : String := "toml: syntax error"

/-- `LayerMetadataFile` from `buildpack/layermetadata.go`: opaque data plus
the three classification flags. `data = none` models the Go nil interface
(key absent on disk). -/
structure LayerMetadataFile where
  data : Option TomlValue
  build : Bool
  launch : Bool
  cache : Bool

/-- The Go zero value of `LayerMetadataFile`. -/
def zeroLMF : LayerMetadataFile := ⟨none, false, false, false⟩

/-- The triple `(LayerMetadataFile, string, error)` returned by
`DecodeLayerMetadataFile` and the strategy `Decode` methods. -/
structure LMFDecodeResult where
  value : LayerMetadataFile
  msg : String
  err : Option String

/-- `typesInTopLevel`: shallow scan of the raw top-level keys for any member
of the forbidden list, true at the first one present. -/
def typesInTopLevelDoc (d : TomlDoc) : List String → Bool
  | [] => false
  | key :: rest => if (lookupToml d key).isSome then true else typesInTopLevelDoc d rest

/-- `defaultEncoderDecoder.IsSupported`: buildpack API at least 0.6. -/
def defaultIsSupported (api : APIVersion) : Bool := api.atLeast v06

/-- `legacyEncoderDecoder.IsSupported`: buildpack API below 0.6. -/
def legacyIsSupported (api : APIVersion) : Bool := api.lessThan v06

/-- `defaultEncoderDecoder.Encode`: writes only the opaque data under the
`metadata` key (the types table is omitted — all flags read back false). -/
def defaultEncodeDoc (lmf : LayerMetadataFile) : TomlDoc :=
  match lmf.data with
  | some d => [("metadata", d)]
  | none => []

/-- `legacyEncoderDecoder.Encode`: writes the whole value — data under
`metadata` plus the three flags at the top level. -/
def legacyEncodeDoc (lmf : LayerMetadataFile) : TomlDoc :=
  (match lmf.data with
   | some d => [("metadata", d)]
   | none => []) ++
  [("build", TomlValue.bool lmf.build),
   ("launch", TomlValue.bool lmf.launch),
   ("cache", TomlValue.bool lmf.cache)]

/-- Typed decode of one boolean field: absent key yields the zero value,
a present key must hold a boolean. -/
def decodeBoolField : Option TomlValue → Except String Bool
  | none => .ok false
  | some (.bool b) => .ok b
  | some _ => .error "toml: cannot decode TOML value into bool"

/-- Typed decode of the nested `types` table of the current shape. -/
def decodeTypesTable : Option TomlValue → Except String (Bool × Bool × Bool)
  | none => .ok (false, false, false)
  | some (.table t) =>
      match decodeBoolField (lookupToml t "build"),
            decodeBoolField (lookupToml t "launch"),
            decodeBoolField (lookupToml t "cache") with
      | .ok b, .ok l, .ok c => .ok (b, l, c)
      | .error e, _, _ => .error e
      | _, .error e, _ => .error e
      | _, _, .error e => .error e
  | some _ => .error "toml: cannot decode TOML value into types table"

/-- The typed decode pass of `defaultEncoderDecoder.Decode`: data at top
level under `metadata`, flags inside the nested `types` table. -/
def defaultTypedDecode (d : TomlDoc) : Except String LayerMetadataFile :=
  match decodeTypesTable (lookupToml d "types") with
  | .error e => .error e
  | .ok flags => .ok ⟨lookupToml d "metadata", flags.1, flags.2.1, flags.2.2⟩

/-- The typed decode pass of `legacyEncoderDecoder.Decode`: data and the
three flags all at the top level. -/
def legacyTypedDecode (d : TomlDoc) : Except String LayerMetadataFile :=
  match decodeBoolField (lookupToml d "build"),
        decodeBoolField (lookupToml d "launch"),
        decodeBoolField (lookupToml d "cache") with
  | .ok b, .ok l, .ok c => .ok ⟨lookupToml d "metadata", b, l, c⟩
  | .error e, _, _ => .error e
  | _, .error e, _ => .error e
  | _, _, .error e => .error e

/-- The advisory computed by `defaultEncoderDecoder.Decode`'s shallow scan
for legacy flags placed at the top level. -/
def defaultAdvisory (path : String) (d : TomlDoc) : String :=
  if typesInTopLevelDoc d ["build", "launch", "cache"] then
    "the launch, cache and build flags should be in the types table of " ++ path
  else ""

/-- The advisory computed by `legacyEncoderDecoder.Decode`'s shallow scan
for a `types` table the legacy schema does not know. -/
def legacyAdvisory (d : TomlDoc) : String :=
  if typesInTopLevelDoc d ["types"] then
    "Types table isn't supported in this buildpack api version. The launch, build and cache flags should be in the top level. Ignoring the values in the types table."
  else ""

/-- `defaultEncoderDecoder.Decode`: shallow scan first (a malformed file
fails there, before any advisory is computed), then the typed decode; the
advisory is surfaced both on success and alongside a typed-decode error. -/
def defaultDecode (path : String) (f : ParsedFile) : LMFDecodeResult :=
  match f with
  | .malformed => ⟨zeroLMF, "", some tomlSyntaxError⟩
  | .doc d =>
    let msg := defaultAdvisory path d
    match defaultTypedDecode d with
    | .error e => ⟨zeroLMF, msg, some e⟩
    | .ok lmf => ⟨lmf, msg, none⟩

/-- `legacyEncoderDecoder.Decode`: shallow scan for `types`, then the typed
decode of the flat shape. -/
def legacyDecode (f : ParsedFile) : LMFDecodeResult :=
  match f with
  | .malformed => ⟨zeroLMF, "", some tomlSyntaxError⟩
  | .doc d =>
    let msg := legacyAdvisory d
    match legacyTypedDecode d with
    | .error e => ⟨zeroLMF, msg, some e⟩
    | .ok lmf => ⟨lmf, msg, none⟩

/-- `EncodeLayerMetadataFile`: pick the first supported strategy (current,
then legacy) and return the document it writes at the path. -/
def EncodeLayerMetadataFile (lmf : LayerMetadataFile) (api : APIVersion) :
    Except String TomlDoc :=
  if defaultIsSupported api then .ok (defaultEncodeDoc lmf)
  else if legacyIsSupported api then .ok (legacyEncodeDoc lmf)
  else .error "couldn't find an encoder"

/-- `DecodeLayerMetadataFile`: a missing file is a normal state (zero value,
empty advisory, no error); otherwise the first supported strategy decodes. -/
def DecodeLayerMetadataFile (path : String) (file : DiskFile) (api : APIVersion) :
    LMFDecodeResult :=
  match file with
  | .absent => ⟨zeroLMF, "", none⟩
  | .present f =>
    if defaultIsSupported api then defaultDecode path f
    else if legacyIsSupported api then legacyDecode f
    else ⟨zeroLMF, "", some "couldn't find a decoder"⟩

/-- `Require`: a named requirement with a top-level version and an opaque
metadata mapping (`metadata = assoc list`, the Go map). -/
structure Require where
  name : String
  version : String
  metadata : List (String × TomlValue)

/-- `Require.hasDoublySpecifiedVersions`: the metadata `version` key is set
and the top-level version is non-empty. -/
def Require.hasDoublySpecifiedVersions (r : Require) : Bool :=
  match lookupToml r.metadata "version" with
  | some _ => r.version != ""
  | none => false

/-- `Require.hasInconsistentVersions`: both set, and the `interface{}`
comparison `r.Version != version` holds (a dynamic type-and-value check,
true for every non-string metadata version). -/
def Require.hasInconsistentVersions (r : Require) : Bool :=
  match lookupToml r.metadata "version" with
  | some v => r.version != "" && !(goEqStringValue r.version v)
  | none => false

/-- The spec's wording of `hasInconsistentVersions`, for comparison with
the source definition: both set and their STRING FORMS differ. -/
def specHasInconsistentVersions (r : Require) : Bool :=
  match lookupToml r.metadata "version" with
  | some v => r.version != "" && goFormatV v != r.version
  | none => false

/-- `GroupElement`. Modelled from the spec: the buildpack identity type is
not under `src/` (only its use in `BOMEntry` is); the spec describes it as
an id/version pair, with the Go zero value having both fields empty. -/
structure GroupElement where
  id : String
  version : String

/-- The Go zero value of `GroupElement`. -/
def zeroGroupElement : GroupElement := ⟨"", ""⟩

/-- `BOMEntry`: an embedded `Require` plus the owning buildpack identity. -/
structure BOMEntry where
  require : Require
  buildpack : GroupElement

/-- `Unmet`: a named unmet requirement from build.toml. -/
structure Unmet where
  name : String

/-- `containsName`: linear scan of the unmet list for a name. -/
def containsName : List Unmet → String → Bool
  | [], _ => false
  | u :: rest, name => if u.name = name then true else containsName rest name

/-- `Plan`: a single buildpack's declared requirement entries. -/
structure Plan where
  entries : List Require

/-- `Plan.filter`: keep the entries whose name is not in the unmet list. -/
def Plan.filter (p : Plan) (unmet : List Unmet) : Plan :=
  ⟨p.entries.filter (fun entry => !containsName unmet entry.name)⟩

/-- `Plan.toBOM`: each entry becomes a `BOMEntry` whose buildpack identity
is left at its zero value. -/
def Plan.toBOM (p : Plan) : List BOMEntry :=
  p.entries.map (fun entry => ⟨entry, zeroGroupElement⟩)

/-- `Label`: a key/value label from launch.toml. -/
structure Label where
  key : String
  value : String

/-- `layers.Slice` (opaque to this layer): a list of paths. -/
structure Slice where
  paths : List String

/-- `launch.RawCommand`. Modelled from the spec and the call site: wraps the
resolved command list of an executable process descriptor. -/
structure RawCommand where
  entries : List String

/-- `launch.NewRawCommand`: wrap a command list. -/
def NewRawCommand (cmd : List String) : RawCommand := ⟨cmd⟩

/-- `launch.Process`. Modelled from the spec and the call site in
`ToLaunchProcess`: the executable process descriptor handed to the caller. -/
structure Process where
  type : String
  command : RawCommand
  args : List String
  direct : Bool
  default : Bool
  buildpackID : String
  workingDirectory : String

/-- `ProcessEntry` (current schema): command is a list of strings;
`command` (resolved) is never itself decoded, `rawCommandValue` is the
decoded on-disk form, `direct = none` models the Go nil pointer. -/
structure ProcessEntry where
  type : String
  command : List String
  rawCommandValue : List String
  args : List String
  direct : Option Bool
  default : Bool
  workingDirectory : String

/-- `ProcessEntryBeforeV9` (legacy schema): the on-disk command is a single
string. -/
structure ProcessEntryBeforeV9 where
  type : String
  command : List String
  rawCommandValue : String
  args : List String
  direct : Option Bool
  default : Bool
  workingDirectory : String

/-- A process table as it appears in a parsed launch.toml document: the
`command` key's raw value (absent or any TOML value — its expected shape
depends on the API version), and `direct` present only as a boolean. -/
structure TomlProcessEntry where
  type : String
  command : Option TomlValue
  args : List String
  direct : Option Bool
  default : Bool
  workingDirectory : String

/-- A parsed launch.toml document. The `bom`, `labels` and `slices` lists
decode identically under both schemas and are carried through typed. -/
structure LaunchFileDoc where
  bom : List BOMEntry
  labels : List Label
  processes : List TomlProcessEntry
  slices : List Slice

/-- `LaunchTOML`: the decode result handed back to the caller. -/
structure LaunchTOML where
  bom : List BOMEntry
  labels : List Label
  processes : List ProcessEntry
  slices : List Slice

/-- Typed decode of one legacy process entry: the `command` key must be
absent (zero value, empty string) or hold a single string. -/
def decodeProcessBeforeV9 (tp : TomlProcessEntry) : Except String ProcessEntryBeforeV9 :=
  match tp.command with
  | none =>
      .ok ⟨tp.type, [], "", tp.args, tp.direct, tp.default, tp.workingDirectory⟩
  | some (.str s) =>
      .ok ⟨tp.type, [], s, tp.args, tp.direct, tp.default, tp.workingDirectory⟩
  | some _ => .error "toml: cannot decode TOML value into string"

/-- Typed decode of a TOML array expected to hold only strings. -/
def decodeStringList : List TomlValue → Except String (List String)
  | [] => .ok []
  | .str s :: rest =>
      match decodeStringList rest with
      | .ok ss => .ok (s :: ss)
      | .error e => .error e
  | _ :: _ => .error "toml: cannot decode TOML value into string"

/-- Typed decode of one current process entry: the `command` key must be
absent or hold an array of strings. -/
def decodeProcessCurrent (tp : TomlProcessEntry) : Except String ProcessEntry :=
  match tp.command with
  | none =>
      .ok ⟨tp.type, [], [], tp.args, tp.direct, tp.default, tp.workingDirectory⟩
  | some (.arr elems) =>
      match decodeStringList elems with
      | .ok cmd => .ok ⟨tp.type, [], cmd, tp.args, tp.direct, tp.default, tp.workingDirectory⟩
      | .error e => .error e
  | some _ => .error "toml: cannot decode TOML value into string array"

/-- Typed decode of the whole legacy process list. -/
def decodeProcessesBeforeV9 : List TomlProcessEntry → Except String (List ProcessEntryBeforeV9)
  | [] => .ok []
  | tp :: rest =>
      match decodeProcessBeforeV9 tp with
      | .error e => .error e
      | .ok p =>
        match decodeProcessesBeforeV9 rest with
        | .error e => .error e
        | .ok ps => .ok (p :: ps)

/-- Typed decode of the whole current process list. -/
def decodeProcessesCurrent : List TomlProcessEntry → Except String (List ProcessEntry)
  | [] => .ok []
  | tp :: rest =>
      match decodeProcessCurrent tp with
      | .error e => .error e
      | .ok p =>
        match decodeProcessesCurrent rest with
        | .error e => .error e
        | .ok ps => .ok (p :: ps)

/-- The per-entry shim of `DecodeLaunchTOML`'s legacy branch: copy the
fields and wrap a non-empty raw command string into a one-element list. -/
def shimProcessBeforeV9 (p : ProcessEntryBeforeV9) : ProcessEntry :=
  { type := p.type
    command := p.command
    rawCommandValue := if p.rawCommandValue.length > 0 then [p.rawCommandValue] else []
    args := p.args
    direct := p.direct
    default := p.default
    workingDirectory := p.workingDirectory }

/-- The post-decode normalization loop of `DecodeLaunchTOML`: under the
legacy gate, default `direct` to false and resolve the command; under the
current gate, reject any present `direct` key and resolve the command. -/
def normalizeProcesses (commandsAreStrings : Bool) :
    List ProcessEntry → Except String (List ProcessEntry)
  | [] => .ok []
  | p :: rest =>
    if commandsAreStrings then
      match normalizeProcesses commandsAreStrings rest with
      | .ok ps =>
          .ok ({ p with direct := some (p.direct.getD false),
                        command := p.rawCommandValue } :: ps)
      | .error e => .error e
    else
      if p.direct.isSome then
        .error "process.direct is not supported on this buildpack version"
      else
        match normalizeProcesses commandsAreStrings rest with
        | .ok ps => .ok ({ p with command := p.rawCommandValue } :: ps)
        | .error e => .error e

/-- `DecodeLaunchTOML`: version gate at 0.9 selects the decode shape of the
process commands, then the normalization loop runs over the processes. -/
def DecodeLaunchTOML (file : LaunchFileDoc) (bpAPI : APIVersion) :
    Except String LaunchTOML :=
  let commandsAreStrings := bpAPI.lessThan v09
  if commandsAreStrings then
    match decodeProcessesBeforeV9 file.processes with
    | .error e => .error e
    | .ok procsB =>
      match normalizeProcesses true (procsB.map shimProcessBeforeV9) with
      | .error e => .error e
      | .ok normalized => .ok ⟨file.bom, file.labels, normalized, file.slices⟩
  else
    match decodeProcessesCurrent file.processes with
    | .error e => .error e
    | .ok procs =>
      match normalizeProcesses false procs with
      | .error e => .error e
      | .ok normalized => .ok ⟨file.bom, file.labels, normalized, file.slices⟩

/-- `ProcessEntry.ToLaunchProcess`: legacy entries always carry a `direct`
value; current entries carry none and are always direct. -/
def ProcessEntry.ToLaunchProcess (p : ProcessEntry) (bpID : String) : Process :=
  { type := p.type
    command := NewRawCommand p.command
    args := p.args
    direct := match p.direct with
              | none => true
              | some b => b
    default := p.default
    buildpackID := bpID
    workingDirectory := p.workingDirectory }

/-! ## Helper lemmas -/

/-- `containsName` decides membership of a name among the unmet names. -/
theorem containsName_eq_true_iff (unmet : List Unmet) (name : String) :
    containsName unmet name = true ↔ name ∈ unmet.map Unmet.name := by
  induction unmet with
  | nil => simp [containsName]
  | cons u rest ih =>
    by_cases h : u.name = name
    · simp [containsName, h]
    · simp [containsName, h, ih, Ne.symm h]

/-- `goEqStringValue` holds exactly on the string value with the same text. -/
theorem goEqStringValue_eq_true_iff (s : String) (v : TomlValue) :
    goEqStringValue s v = true ↔ v = TomlValue.str s := by
  cases v with
  | str t =>
    simp only [goEqStringValue, beq_iff_eq, TomlValue.str.injEq]
    exact eq_comm
  | int n => simp [goEqStringValue]
  | bool b => simp [goEqStringValue]
  | arr elems => simp [goEqStringValue]
  | table fields => simp [goEqStringValue]

/-! ## Claims -/

/-- C5: for every path to a non-existent file and every API version,
`DecodeLayerMetadataFile` returns the zero `LayerMetadataFile`, an empty
advisory string and no error. -/
theorem decodeLayerMetadataFile_absent (path : String) (api : APIVersion) :
    DecodeLayerMetadataFile path .absent api = ⟨zeroLMF, "", none⟩ := rfl

/-- C2 counterexample: on `Require{Version: "1", Metadata: {"version": 1}}`
the string form of the metadata version equals the top-level version, so
the claim predicts `false`, yet `hasInconsistentVersions` returns `true`
(the Go `interface{}` comparison distinguishes the int from the string). -/
theorem hasInconsistentVersions_not_stringForm :
    Require.hasInconsistentVersions ⟨"dep", "1", [("version", TomlValue.int 1)]⟩ = true ∧
    goFormatV (TomlValue.int 1) =
      (Require.mk "dep" "1" [("version", TomlValue.int 1)]).version ∧
    specHasInconsistentVersions ⟨"dep", "1", [("version", TomlValue.int 1)]⟩ = false :=
  ⟨rfl, rfl, rfl⟩

/-- C2 (amended): `hasInconsistentVersions` is true iff the top-level
version is non-empty, the metadata `version` key is set, and the metadata
value is not the top-level version as a dynamically typed value (any
non-string metadata version counts as different). -/
theorem hasInconsistentVersions_iff (r : Require) :
    r.hasInconsistentVersions = true ↔
      r.version ≠ "" ∧
        ∃ v, lookupToml r.metadata "version" = some v ∧ v ≠ TomlValue.str r.version := by
  unfold Require.hasInconsistentVersions
  cases hl : lookupToml r.metadata "version" with
  | none => simp [hl]
  | some v =>
    simp only [hl, Bool.and_eq_true, bne_iff_ne, Bool.not_eq_true']
    constructor
    · rintro ⟨h1, h2⟩
      refine ⟨h1, v, rfl, ?_⟩
      intro hv
      rw [hv] at h2
      simp [goEqStringValue] at h2
    · rintro ⟨h1, w, hw, hne⟩
      obtain rfl : v = w := by injection hw
      refine ⟨h1, ?_⟩
      rw [← Bool.not_eq_true, goEqStringValue_eq_true_iff]
      exact hne

/-- C10: an inconsistent version pair is always a doubly-specified one. -/
theorem hasInconsistentVersions_implies_hasDoublySpecifiedVersions (r : Require)
    (h : r.hasInconsistentVersions = true) : r.hasDoublySpecifiedVersions = true := by
  unfold Require.hasInconsistentVersions at h
  unfold Require.hasDoublySpecifiedVersions
  cases hl : lookupToml r.metadata "version" with
  | none => rw [hl] at h; exact absurd h (by simp)
  | some v =>
    rw [hl] at h
    exact (Bool.and_eq_true _ _ |>.mp h).1

/-- C10 witness: a concrete requirement with both versions set and
differing is inconsistent, hence doubly specified. -/
theorem hasInconsistent_doublySpecified_witness :
    Require.hasInconsistentVersions ⟨"dep", "1.0", [("version", TomlValue.str "2.0")]⟩ = true ∧
    Require.hasDoublySpecifiedVersions ⟨"dep", "1.0", [("version", TomlValue.str "2.0")]⟩ = true :=
  ⟨rfl, hasInconsistentVersions_implies_hasDoublySpecifiedVersions _ rfl⟩

/-- C9: `ToLaunchProcess` resolves `direct` to `true` when the entry's
`direct` field is unset, and to the stored boolean when it is set. -/
theorem toLaunchProcess_direct (p : ProcessEntry) (bpID : String) :
    (p.direct = none → (p.ToLaunchProcess bpID).direct = true) ∧
    (∀ b, p.direct = some b → (p.ToLaunchProcess bpID).direct = b) := by
  constructor
  · intro h
    simp [ProcessEntry.ToLaunchProcess, h]
  · intro b h
    simp [ProcessEntry.ToLaunchProcess, h]

/-- C9 witness: on an entry with `direct` unset the launch process is
direct; on an entry storing `false` it is not. -/
theorem toLaunchProcess_direct_witness :
    (ProcessEntry.ToLaunchProcess ⟨"web", ["run"], ["run"], [], none, false, ""⟩ "bp").direct
      = true ∧
    (ProcessEntry.ToLaunchProcess ⟨"web", ["run"], ["run"], [], some false, false, ""⟩ "bp").direct
      = false :=
  ⟨(toLaunchProcess_direct ⟨"web", ["run"], ["run"], [], none, false, ""⟩ "bp").1 rfl,
   (toLaunchProcess_direct ⟨"web", ["run"], ["run"], [], some false, false, ""⟩ "bp").2 false rfl⟩

/-- C8: `Plan.filter` keeps exactly the entries whose name is not among the
unmet names, as a sublist (original relative order) of the entries, and
`Plan.toBOM` sends each entry, in order, to a `BOMEntry` holding it with
the zero buildpack identity. (Both construct new values; the input `Plan`
is immutable here as the Go receiver is passed by value.) -/
theorem plan_filter_and_toBOM (p : Plan) (unmet : List Unmet) :
    (p.filter unmet).entries =
      p.entries.filter (fun entry => decide (entry.name ∉ unmet.map Unmet.name)) ∧
    List.Sublist (p.filter unmet).entries p.entries ∧
    List.map BOMEntry.require p.toBOM = p.entries ∧
    ∀ b ∈ p.toBOM, b.buildpack = zeroGroupElement := by
  have hfil : (p.filter unmet).entries =
      p.entries.filter (fun entry => decide (entry.name ∉ unmet.map Unmet.name)) := by
    unfold Plan.filter
    apply List.filter_congr
    intro e _
    cases hc : containsName unmet e.name
    · have : e.name ∉ unmet.map Unmet.name := by
        rw [← containsName_eq_true_iff]
        simp [hc]
      simp [this]
    · have : e.name ∈ unmet.map Unmet.name := (containsName_eq_true_iff _ _).mp hc
      simp [this]
  refine ⟨hfil, ?_, ?_, ?_⟩
  · rw [hfil]
    exact List.filter_sublist _
  · unfold Plan.toBOM
    rw [List.map_map]
    exact List.map_id _
  · intro b hb
    unfold Plan.toBOM at hb
    obtain ⟨e, _, rfl⟩ := List.mem_map.mp hb
    rfl

/-- C1: under every API version at least 0.6, encoding any
`LayerMetadataFile` and decoding the written file yields the original data
with all three flags false (flags are never written in this direction),
plus an empty advisory and no error. -/
theorem encode_decode_roundTrip_current (v : LayerMetadataFile) (api : APIVersion)
    (h : api.atLeast v06 = true) :
    ∃ d, EncodeLayerMetadataFile v api = .ok d ∧
      ∀ path, DecodeLayerMetadataFile path (.present (.doc d)) api =
        ⟨⟨v.data, false, false, false⟩, "", none⟩ := by
  refine ⟨defaultEncodeDoc v, ?_, ?_⟩
  · simp [EncodeLayerMetadataFile, defaultIsSupported, h]
  · intro path
    simp only [DecodeLayerMetadataFile, defaultIsSupported, h, if_true, defaultDecode]
    cases hd : v.data <;>
      simp [defaultEncodeDoc, hd, defaultAdvisory, typesInTopLevelDoc, lookupToml,
        defaultTypedDecode, decodeTypesTable]

/-- C1 witness: a concrete encode/decode round trip at API 0.6 erases the
flags and keeps the data. -/
theorem encode_decode_roundTrip_current_witness :
    APIVersion.atLeast ⟨0, 6⟩ v06 = true ∧
    ∃ d, EncodeLayerMetadataFile ⟨some (TomlValue.str "payload"), true, true, true⟩ ⟨0, 6⟩
          = .ok d ∧
      ∀ path, DecodeLayerMetadataFile path (.present (.doc d)) ⟨0, 6⟩ =
        ⟨⟨some (TomlValue.str "payload"), false, false, false⟩, "", none⟩ :=
  ⟨rfl, encode_decode_roundTrip_current ⟨some (TomlValue.str "payload"), true, true, true⟩
    ⟨0, 6⟩ rfl⟩

/-- C6: under every API version below 0.6, encoding any `LayerMetadataFile`
and decoding the written file round-trips data and all three flags
exactly, with an empty advisory and no error. -/
theorem encode_decode_roundTrip_legacy (v : LayerMetadataFile) (api : APIVersion)
    (h : api.lessThan v06 = true) :
    ∃ d, EncodeLayerMetadataFile v api = .ok d ∧
      ∀ path, DecodeLayerMetadataFile path (.present (.doc d)) api =
        ⟨v, "", none⟩ := by
  have hnot : api.atLeast v06 = false := by
    simp [APIVersion.atLeast, h]
  refine ⟨legacyEncodeDoc v, ?_, ?_⟩
  · simp [EncodeLayerMetadataFile, defaultIsSupported, legacyIsSupported, h, hnot]
  · intro path
    simp only [DecodeLayerMetadataFile, defaultIsSupported, legacyIsSupported, h, hnot,
      if_false, if_true, legacyDecode]
    cases v with
    | mk data build launch cache =>
      cases hd : data <;>
        simp [legacyEncodeDoc, hd, legacyAdvisory, typesInTopLevelDoc, lookupToml,
          legacyTypedDecode, decodeBoolField]

/-- C6 witness: a concrete encode/decode round trip at API 0.5 preserves
data and all flags. -/
theorem encode_decode_roundTrip_legacy_witness :
    APIVersion.lessThan ⟨0, 5⟩ v06 = true ∧
    ∃ d, EncodeLayerMetadataFile ⟨some (TomlValue.str "payload"), true, false, true⟩ ⟨0, 5⟩
          = .ok d ∧
      ∀ path, DecodeLayerMetadataFile path (.present (.doc d)) ⟨0, 5⟩ =
        ⟨⟨some (TomlValue.str "payload"), true, false, true⟩, "", none⟩ :=
  ⟨rfl, encode_decode_roundTrip_legacy ⟨some (TomlValue.str "payload"), true, false, true⟩
    ⟨0, 5⟩ rfl⟩

/-- C7: when the typed decode of a parsed layer metadata file fails, both
strategies return that error from `DecodeLayerMetadataFile`, together with
whatever advisory the shallow top-level key scan computed. -/
theorem decode_error_surfaces_advisory (path : String) (d : TomlDoc) (api : APIVersion)
    (e : String) :
    (api.atLeast v06 = true → defaultTypedDecode d = .error e →
      DecodeLayerMetadataFile path (.present (.doc d)) api =
        ⟨zeroLMF, defaultAdvisory path d, some e⟩) ∧
    (api.atLeast v06 = false → legacyTypedDecode d = .error e →
      DecodeLayerMetadataFile path (.present (.doc d)) api =
        ⟨zeroLMF, legacyAdvisory d, some e⟩) := by
  constructor
  · intro h htyped
    simp [DecodeLayerMetadataFile, defaultIsSupported, h, defaultDecode, htyped]
  · intro h htyped
    have hlt : api.lessThan v06 = true := by
      have := congrArg Bool.not h
      simpa [APIVersion.atLeast] using this
    simp [DecodeLayerMetadataFile, defaultIsSupported, legacyIsSupported, h, hlt,
      legacyDecode, htyped]

/-- C7 witness: a file carrying a top-level `build` flag and a malformed
`types` value decodes to an error, yet the advisory from the shallow scan
is still returned alongside it. -/
theorem decode_error_surfaces_advisory_witness :
    DecodeLayerMetadataFile "layer.toml"
        (.present (.doc [("build", TomlValue.bool true), ("types", TomlValue.int 3)]))
        ⟨0, 6⟩ =
      ⟨zeroLMF, "the launch, cache and build flags should be in the types table of layer.toml",
        some "toml: cannot decode TOML value into types table"⟩ :=
  (decode_error_surfaces_advisory "layer.toml"
      [("build", TomlValue.bool true), ("types", TomlValue.int 3)] ⟨0, 6⟩
      "toml: cannot decode TOML value into types table").1 rfl rfl

/-! ## Launch decoder lemmas -/

/-- A non-empty string has positive length. -/
theorem string_length_pos_of_ne_empty (s : String) (h : s ≠ "") : 0 < s.length := by
  cases s with
  | mk data =>
    cases data with
    | nil => exact absurd rfl h
    | cons c cs => simp [String.length]

/-- A `Forall₂` relation transfers any member of the left list to a related
member of the right list. -/
theorem forall2_exists_right {α β : Type} {R : α → β → Prop} {l : List α} {m : List β}
    (h : List.Forall₂ R l m) {a : α} (ha : a ∈ l) : ∃ b ∈ m, R a b := by
  induction h with
  | nil => cases ha
  | cons hr _ ih =>
    cases ha with
    | head => exact ⟨_, List.mem_cons_self _ _, hr⟩
    | tail _ ha => obtain ⟨b, hb, hRb⟩ := ih ha; exact ⟨b, List.mem_cons_of_mem _ hb, hRb⟩

/-- The current-schema typed decode of a process entry never changes the
decoded `direct` pointer. -/
theorem decodeProcessCurrent_direct (tp : TomlProcessEntry) (p : ProcessEntry)
    (h : decodeProcessCurrent tp = .ok p) : p.direct = tp.direct := by
  unfold decodeProcessCurrent at h
  split at h
  · injection h with h; rw [← h]
  · split at h
    · injection h with h; rw [← h]
    · cases h
  · cases h

/-- List version of `decodeProcessCurrent_direct`. -/
theorem decodeProcessesCurrent_direct (l : List TomlProcessEntry) (ps : List ProcessEntry)
    (h : decodeProcessesCurrent l = .ok ps) :
    List.Forall₂ (fun tp p => p.direct = tp.direct) l ps := by
  induction l generalizing ps with
  | nil =>
    unfold decodeProcessesCurrent at h
    injection h with h
    rw [← h]
    exact .nil
  | cons tp rest ih =>
    unfold decodeProcessesCurrent at h
    split at h
    · cases h
    · split at h
      · cases h
      · injection h with h
        rw [← h]
        exact .cons (decodeProcessCurrent_direct _ _ (by assumption)) (ih _ (by assumption))

/-- The current-schema normalization loop fails as soon as any entry still
carries a decoded `direct` value. -/
theorem normalizeProcesses_current_err (ps : List ProcessEntry)
    (h : ∃ p ∈ ps, p.direct.isSome = true) :
    ∃ e, normalizeProcesses false ps = .error e := by
  induction ps with
  | nil => simp at h
  | cons p rest ih =>
    obtain ⟨q, hq, hqd⟩ := h
    by_cases hpd : p.direct.isSome = true
    · exact ⟨"process.direct is not supported on this buildpack version",
        by simp [normalizeProcesses, hpd]⟩
    · have hqrest : q ∈ rest := by
        cases hq with
        | head => exact absurd hqd hpd
        | tail _ hq => exact hq
      obtain ⟨e, he⟩ := ih ⟨q, hqrest, hqd⟩
      exact ⟨e, by simp [normalizeProcesses, hpd, he]⟩

/-- C3: under every API version at least 0.9, a launch descriptor file in
which any process entry has the `direct` key present (with either boolean
value) fails to decode. -/
theorem decodeLaunchTOML_direct_rejected (file : LaunchFileDoc) (api : APIVersion)
    (hapi : api.lessThan v09 = false)
    (hdir : ∃ tp ∈ file.processes, tp.direct.isSome = true) :
    ∃ e, DecodeLaunchTOML file api = .error e := by
  cases hdec : decodeProcessesCurrent file.processes with
  | error e => exact ⟨e, by simp [DecodeLaunchTOML, hapi, hdec]⟩
  | ok procs =>
    obtain ⟨tp, htp, htpd⟩ := hdir
    obtain ⟨p, hp, hpd⟩ := forall2_exists_right (decodeProcessesCurrent_direct _ _ hdec) htp
    obtain ⟨e, he⟩ := normalizeProcesses_current_err procs ⟨p, hp, by rw [hpd]; exact htpd⟩
    exact ⟨e, by simp [DecodeLaunchTOML, hapi, hdec, he]⟩

/-- C3 witness: at API 0.9 a process entry that sets `direct = false` in
the file makes the decode fail. -/
theorem decodeLaunchTOML_direct_rejected_witness :
    APIVersion.lessThan ⟨0, 9⟩ v09 = false ∧
    ∃ e, DecodeLaunchTOML
        ⟨[], [], [⟨"web", some (TomlValue.arr [TomlValue.str "npm", TomlValue.str "start"]),
          [], some false, false, ""⟩], []⟩ ⟨0, 9⟩ = .error e :=
  ⟨rfl, decodeLaunchTOML_direct_rejected
    ⟨[], [], [⟨"web", some (TomlValue.arr [TomlValue.str "npm", TomlValue.str "start"]),
      [], some false, false, ""⟩], []⟩ ⟨0, 9⟩ rfl
    ⟨⟨"web", some (TomlValue.arr [TomlValue.str "npm", TomlValue.str "start"]),
      [], some false, false, ""⟩, List.Mem.head _, rfl⟩⟩

/-- The legacy normalization loop never fails: it defaults `direct` to
false where absent and resolves the command, entry by entry. -/
theorem normalizeProcesses_legacy_eq (ps : List ProcessEntry) :
    normalizeProcesses true ps =
      .ok (ps.map (fun p =>
        { p with direct := some (p.direct.getD false), command := p.rawCommandValue })) := by
  induction ps with
  | nil => rfl
  | cons p rest ih => simp [normalizeProcesses, ih]

/-- The legacy typed decode relates each on-disk process table to its
decoded entry: the raw command string mirrors the file's `command` key and
the `direct` pointer is decoded untouched. -/
theorem decodeProcessesBeforeV9_spec (l : List TomlProcessEntry)
    (ps : List ProcessEntryBeforeV9) (h : decodeProcessesBeforeV9 l = .ok ps) :
    List.Forall₂ (fun tp pb =>
      (tp.command = none → pb.rawCommandValue = "") ∧
      (∀ s, tp.command = some (TomlValue.str s) → pb.rawCommandValue = s) ∧
      pb.direct = tp.direct) l ps := by
  induction l generalizing ps with
  | nil =>
    unfold decodeProcessesBeforeV9 at h
    injection h with h
    rw [← h]
    exact .nil
  | cons tp rest ih =>
    unfold decodeProcessesBeforeV9 at h
    split at h
    · cases h
    · rename_i pb hpb
      split at h
      · cases h
      · rename_i ps2 hps2
        injection h with h
        rw [← h]
        refine .cons ?_ (ih _ hps2)
        unfold decodeProcessBeforeV9 at hpb
        split at hpb
        · rename_i hcmd
          injection hpb with hpb
          rw [← hpb]
          refine ⟨fun _ => rfl, ?_, rfl⟩
          intro s hs
          rw [hcmd] at hs
          cases hs
        · rename_i s hcmd
          injection hpb with hpb
          rw [← hpb]
          refine ⟨?_, ?_, rfl⟩
          · intro hc
            rw [hcmd] at hc
            cases hc
          · intro t ht
            rw [hcmd] at ht
            injection ht with ht
            injection ht with ht
        · cases hpb

/-- C4: under every API version below 0.9, a successful launch descriptor
decode turns each process entry's single-string command into the common
shape — a non-empty string becomes a one-element `command` list, an empty
or absent string an empty list — and an absent `direct` key resolves to
false. -/
theorem decodeLaunchTOML_legacy_commands (file : LaunchFileDoc) (api : APIVersion)
    (lt : LaunchTOML) (hapi : api.lessThan v09 = true)
    (hdec : DecodeLaunchTOML file api = .ok lt) :
    List.Forall₂ (fun tp p =>
      (tp.command = none → p.command = []) ∧
      (∀ s, tp.command = some (TomlValue.str s) →
        p.command = if s = "" then [] else [s]) ∧
      (tp.direct = none → p.direct = some false)) file.processes lt.processes := by
  unfold DecodeLaunchTOML at hdec
  simp only [hapi, if_true] at hdec
  cases hb : decodeProcessesBeforeV9 file.processes with
  | error e => rw [hb] at hdec; cases hdec
  | ok procsB =>
    simp only [hb, normalizeProcesses_legacy_eq] at hdec
    injection hdec with hdec
    have hp : lt.processes = ((procsB.map shimProcessBeforeV9).map (fun p =>
        { p with direct := some (p.direct.getD false), command := p.rawCommandValue })) := by
      rw [← hdec]
    rw [hp, List.forall₂_map_right_iff, List.forall₂_map_right_iff]
    refine List.Forall₂.imp ?_ (decodeProcessesBeforeV9_spec _ _ hb)
    intro tp pb hR
    refine ⟨?_, ?_, ?_⟩
    · intro hc
      simp [shimProcessBeforeV9, hR.1 hc]
    · intro s hs
      have hraw := hR.2.1 s hs
      by_cases hse : s = ""
      · subst hse
        simp [shimProcessBeforeV9, hraw]
      · have hlen := string_length_pos_of_ne_empty s hse
        simp [shimProcessBeforeV9, hraw, hse, hlen]
    · intro hd
      have := hR.2.2
      rw [hd] at this
      simp [shimProcessBeforeV9, this]

/-- C4 witness: at API 0.8 a process with `command = "npm start"` and no
`direct` key decodes to the one-element command list with `direct`
resolved to false. -/
theorem decodeLaunchTOML_legacy_commands_witness :
    APIVersion.lessThan ⟨0, 8⟩ v09 = true ∧
    List.Forall₂ (fun tp p =>
      (tp.command = none → p.command = []) ∧
      (∀ s, tp.command = some (TomlValue.str s) →
        p.command = if s = "" then [] else [s]) ∧
      (tp.direct = none → p.direct = some false))
      (LaunchFileDoc.mk [] []
        [⟨"web", some (TomlValue.str "npm start"), [], none, false, ""⟩] []).processes
      (LaunchTOML.mk [] []
        [⟨"web", ["npm start"], ["npm start"], [], some false, false, ""⟩] []).processes :=
  ⟨rfl, decodeLaunchTOML_legacy_commands
    (LaunchFileDoc.mk [] []
      [⟨"web", some (TomlValue.str "npm start"), [], none, false, ""⟩] [])
    ⟨0, 8⟩
    (LaunchTOML.mk [] []
      [⟨"web", ["npm start"], ["npm start"], [], some false, false, ""⟩] [])
    rfl rfl⟩

end Lifecycle
